import Mathlib

set_option maxRecDepth 100000
set_option maxHeartbeats 2000000

/-!
Verification of an infix arithmetic-expression calculator: a tokenizer that
scans a string into number/operator/parenthesis tokens (disambiguating unary
versus binary minus using the previously emitted token), and a shunting-yard
evaluator over an operand stack and an operator stack.

Numeric values are modelled as exact rationals (`ℚ`): the program's division
is true (non-truncating) division, and results of exponentiation are modelled
exactly whenever the exponent is an integer.  Failures (`ValueError`,
`IndexError`) are modelled with an explicit error type in `Except`.
-/

/-- Operator descriptors: the five binary arithmetic operators, unary minus,
the two parenthesis markers, and the ad-hoc NUMBER marker. -/
inductive Op where
  | plus
  | minus
  | times
  | divide
  | expon
  | uminus
  | lparen
  | rparen
  | number
deriving DecidableEq, Repr

/-- The `symbol` field of each operator descriptor. -/
def Op.symbol : Op → Char
  | .plus => '+'
  | .minus => '-'
  | .times => '*'
  | .divide => '/'
  | .expon => '^'
  | .uminus => '-'
  | .lparen => '('
  | .rparen => ')'
  | .number => '1'

/-- The `left_assoc` field of each operator descriptor. -/
def Op.leftAssoc : Op → Bool
  | .plus => true
  | .minus => true
  | .times => true
  | .divide => true
  | .expon => false
  | .uminus => true
  | .lparen => false
  | .rparen => false
  | .number => false

/-- The `precedence` field of each operator descriptor. -/
def Op.prec : Op → Nat
  | .plus => 1
  | .minus => 1
  | .times => 2
  | .divide => 2
  | .expon => 3
  | .uminus => 4
  | .lparen => 0
  | .rparen => 0
  | .number => 0

/-- Exponentiation `a ** b` on exact rationals: exact when the exponent is an
integer; a non-integral exponent makes the source compute an irrational
float (or complex) power, which this totalization maps to the junk value 0.
Universal statements therefore carry an `Expr.SafeEval` hypothesis keeping
every exponent integral. -/
def qpow (a b : ℚ) : ℚ := if b.den = 1 then a ^ b.num else 0

/-- The `calc` field of each operator descriptor (the evaluation lambda).
The three marker entries carry `None` in the source; they are never invoked,
and are modelled by the junk constant 0.  The divide case totalizes the
source's `a / b`: it returns 0 at a zero divisor where the source raises
`ZeroDivisionError`, so universal statements carry an `Expr.SafeEval`
hypothesis excluding zero divisors. -/
def Op.calcFn : Op → ℚ → ℚ → ℚ
  | .plus, a, b => a + b
  | .minus, a, b => a - b
  | .times, a, b => a * b
  | .divide, a, b => a / b
  | .expon, a, b => qpow a b
  | .uminus, _, b => 0 - b
  | _, _, _ => 0

/-- `ARITHMETIC_OPERATORS`. -/
def arithmeticOperators : List Op := [.plus, .minus, .times, .divide, .expon]

/-- A token: its type (an operator-table entry, NUMBER, LPAREN or RPAREN) and
the raw matched text. -/
structure Token where
  tokenType : Op
  value : List Char
deriving DecidableEq, Repr

/-- Errors raised by the program: `ValueError` with its message (a lexical
error carries the one-character message `str(c)`), and `IndexError` from
popping or peeking an empty list. -/
inductive Err where
  | valueError (msg : String)
  | indexError
deriving DecidableEq, Repr

/-- `c.isnumeric()` modelled on the ASCII alphabet, where it coincides with
the digits `'0'`-`'9'`.  The source additionally accepts any Unicode-numeric
character (e.g. U+0663) as part of a number literal, which this model does
not cover; statements about invalid characters and about digit runs are
therefore restricted to ASCII inputs. -/
def isNumeric (c : Char) : Bool := c.isDigit

/-- The unary-minus test: the previously emitted token is absent or is
neither NUMBER nor RPAREN. -/
def unaryMinusCond : Option Op → Bool
  | none => true
  | some t => !(t == Op.number || t == Op.rparen)

/-- Result of one `__next__` call: a token together with the updated scan
state (remaining characters, number-string buffer), end of iteration
(`StopIteration`), or a lexical error `ValueError(c)`. -/
inductive NextRes where
  | tok (t : Token) (rest : List Char) (numberStr : List Char)
  | stop
  | err (c : Char)
deriving DecidableEq, Repr

/-- `Tokenizer.__next__`: scan character by character from the cursor,
returning at the first complete token.  The state is the remaining input
(the cursor's suffix), the running number string, and the previously emitted
token's type. -/
def Tokenizer.next : List Char → List Char → Option Op → NextRes
  | [], numberStr, _ =>
    if numberStr ≠ [] then .tok ⟨Op.number, numberStr⟩ [] [] else .stop
  | c :: cs, numberStr, prev =>
    if isNumeric c = false ∧ numberStr ≠ [] then
      .tok ⟨Op.number, numberStr⟩ (c :: cs) []
    else if isNumeric c then
      Tokenizer.next cs (numberStr ++ [c]) prev
    else if c = ' ' then
      Tokenizer.next cs numberStr prev
    else if c = Op.uminus.symbol ∧ unaryMinusCond prev then
      .tok ⟨Op.uminus, [c]⟩ cs numberStr
    else if c = Op.plus.symbol then .tok ⟨Op.plus, [c]⟩ cs numberStr
    else if c = Op.minus.symbol then .tok ⟨Op.minus, [c]⟩ cs numberStr
    else if c = Op.times.symbol then .tok ⟨Op.times, [c]⟩ cs numberStr
    else if c = Op.divide.symbol then .tok ⟨Op.divide, [c]⟩ cs numberStr
    else if c = Op.expon.symbol then .tok ⟨Op.expon, [c]⟩ cs numberStr
    else if c = Op.lparen.symbol then .tok ⟨Op.lparen, [c]⟩ cs numberStr
    else if c = Op.rparen.symbol then .tok ⟨Op.rparen, [c]⟩ cs numberStr
    else .err c

/-- Prepend a token to a (token list, lexical error) pair. -/
def tcons (t : Token) (p : List Token × Option Char) : List Token × Option Char :=
  (t :: p.1, p.2)

/-- Iterate `Tokenizer.next` to exhaustion, collecting the emitted tokens and
the lexical error, if any, that ends the stream.  Fuel-indexed; `tokenize`
supplies fuel that is proved sufficient below (`tokenize_eq_lex`). -/
def tokenizeAux : Nat → List Char → List Char → Option Op → List Token × Option Char
  | 0, _, _, _ => ([], none)
  | fuel + 1, rest, numberStr, prev =>
    match Tokenizer.next rest numberStr prev with
    | .tok t rest2 num2 => tcons t (tokenizeAux fuel rest2 num2 (some t.tokenType))
    | .stop => ([], none)
    | .err c => ([], some c)

/-- The full token stream of an input string: the tokens emitted before the
stream ends, and the lexical error, if any, that ends it. -/
def tokenize (cs : List Char) : List Token × Option Char :=
  tokenizeAux (2 * cs.length + 1) cs [] none

/-- The mutable state of a `Tokenizer` instance: the (immutable) expression
text together with the three fields set by `__iter__`: the cursor (kept as
the suffix of `expr` it points at), `__number_str` and `__prev_token`. -/
structure TkState where
  expr : List Char
  rest : List Char
  numberStr : List Char
  prevToken : Option Op
deriving DecidableEq, Repr

/-- `Tokenizer.__iter__`: reset the cursor to 0, clear the number string and
the previous token, and return the same instance. -/
def Tokenizer.iter (st : TkState) : TkState :=
  { st with rest := st.expr, numberStr := [], prevToken := none }

/-- `__next__` acting on an instance: a token and the mutated instance, or
none (end of iteration or error). -/
def Tokenizer.stepState (st : TkState) : Option (Token × TkState) :=
  match Tokenizer.next st.rest st.numberStr st.prevToken with
  | .tok t r b => some (t, { st with rest := r, numberStr := b, prevToken := some t.tokenType })
  | .stop => none
  | .err _ => none

/-- Collect the tokens produced by up to `fuel` calls of `__next__` on an
instance. -/
def collectTokens : Nat → TkState → List Token
  | 0, _ => []
  | fuel + 1, st =>
    match Tokenizer.stepState st with
    | some (t, st2) => t :: collectTokens fuel st2
    | none => []

/-- The instance state left after up to `fuel` calls of `__next__`. -/
def runState : Nat → TkState → TkState
  | 0, st => st
  | fuel + 1, st =>
    match Tokenizer.stepState st with
    | some (_, st2) => runState fuel st2
    | none => st

/-- `OutputStack.append` with an operator argument: reduce the operator
against the operand stack (head = top of stack).  The unary minus pops one
operand, every other operator pops right then left; popping an empty stack
raises `IndexError`. -/
def OutputStack.appendOp (v : Op) (stack : List ℚ) : Except Err (List ℚ) :=
  if v = Op.uminus then
    match stack with
    | right :: rest => .ok (Op.calcFn v 0 right :: rest)
    | [] => .error .indexError
  else
    match stack with
    | right :: left :: rest => .ok (Op.calcFn v left right :: rest)
    | _ => .error .indexError

/-- `OutputStack.result`: the top of the operand stack (`stack[-1]`);
`IndexError` on an empty stack. -/
def OutputStack.result : List ℚ → Except Err ℚ
  | [] => .error .indexError
  | v :: _ => .ok v

/-- `int(s, 10)` on the digit strings produced by the tokenizer. -/
def parseNat (ds : List Char) : Nat :=
  ds.foldl (fun a c => 10 * a + (c.toNat - '0'.toNat)) 0

/-- The pop condition of the shunting-yard loop: the stack top has strictly
greater precedence, or equal precedence with both operators left-associative. -/
def popCondition (top tok : Op) : Prop :=
  top.prec > tok.prec ∨ (top.prec = tok.prec ∧ top.leftAssoc ∧ tok.leftAssoc)

instance (top tok : Op) : Decidable (popCondition top tok) := by
  unfold popCondition; infer_instance

/-- The while-loop run when an arithmetic (or unary-minus) token arrives:
pop and reduce while the top is not LPAREN and the pop condition holds. -/
def reduceWhile (tok : Op) : List Op → List ℚ → Except Err (List Op × List ℚ)
  | [], out => .ok ([], out)
  | top :: rest, out =>
    if top ≠ Op.lparen ∧ popCondition top tok then
      match OutputStack.appendOp top out with
      | .ok out2 => reduceWhile tok rest out2
      | .error e => .error e
    else .ok (top :: rest, out)

/-- The while-loop run when an RPAREN token arrives (after the emptiness
check): pop and reduce until the top is LPAREN, then discard the LPAREN.
Peeking an exhausted stack raises `IndexError`. -/
def rparenLoop : List Op → List ℚ → Except Err (List Op × List ℚ)
  | [], _ => .error .indexError
  | top :: rest, out =>
    if top ≠ Op.lparen then
      match OutputStack.appendOp top out with
      | .ok out2 => rparenLoop rest out2
      | .error e => .error e
    else .ok (rest, out)

/-- The body of the token loop of `Solution.calculate`.  The state is the
pair (operand stack, operator stack), both head-as-top. -/
def processToken (st : List ℚ × List Op) (token : Token) : Except Err (List ℚ × List Op) :=
  if token.tokenType = Op.number then
    .ok (((parseNat token.value : ℚ)) :: st.1, st.2)
  else if token.tokenType ∈ arithmeticOperators ++ [Op.uminus] then
    match reduceWhile token.tokenType st.2 st.1 with
    | .ok (ops2, out2) => .ok (out2, token.tokenType :: ops2)
    | .error e => .error e
  else if token.tokenType = Op.lparen then
    .ok (st.1, Op.lparen :: st.2)
  else if token.tokenType = Op.rparen then
    if st.2 = [] then .error (.valueError "mismatched parentheses")
    else
      match rparenLoop st.2 st.1 with
      | .ok (ops2, out2) => .ok (out2, ops2)
      | .error e => .error e
  else .ok st

/-- The token loop of `Solution.calculate`. -/
def processTokens (ts : List Token) (st : List ℚ × List Op) : Except Err (List ℚ × List Op) :=
  ts.foldlM processToken st

/-- The final loop of `Solution.calculate`: drain the operator stack,
failing on a leftover LPAREN. -/
def drain : List Op → List ℚ → Except Err (List ℚ)
  | [], out => .ok out
  | op :: rest, out =>
    if op = Op.lparen then .error (.valueError "mismatched parentheses")
    else
      match OutputStack.appendOp op out with
      | .ok out2 => drain rest out2
      | .error e => .error e

/-- `Solution.calculate`: tokenize and evaluate.  The evaluator pulls tokens
lazily, so a lexical error surfaces only after all earlier tokens have been
processed (and an evaluator error on an earlier token wins). -/
def calculate (s : String) : Except Err ℚ :=
  match tokenize s.data with
  | (toks, lexErr) =>
    match processTokens toks ([], []) with
    | .error e => .error e
    | .ok st =>
      match lexErr with
      | some c => .error (.valueError (String.mk [c]))
      | none =>
        match drain st.2 st.1 with
        | .error e => .error e
        | .ok out => OutputStack.result out

deriving instance DecidableEq for Except

/-! ### A structurally recursive reformulation of the tokenizer

`lex` processes the input in one pass by structural recursion on the
character list; `lex_eq_next` and `tokenize_eq_lex` prove it equal to the
iterated `Tokenizer.next`.  All induction proofs below work on `lex`. -/

/-- Classification of a single non-digit character, mirroring the if-chain of
`Tokenizer.next`: whitespace, a one-character token, or a lexical error. -/
inductive CharClass where
  | ws
  | tok (t : Token)
  | bad
deriving DecidableEq, Repr

/-- Classify a non-digit character against the previously emitted token. -/
def classifyChar (c : Char) (prev : Option Op) : CharClass :=
  if c = ' ' then .ws
  else if c = Op.uminus.symbol ∧ unaryMinusCond prev then .tok ⟨Op.uminus, [c]⟩
  else if c = Op.plus.symbol then .tok ⟨Op.plus, [c]⟩
  else if c = Op.minus.symbol then .tok ⟨Op.minus, [c]⟩
  else if c = Op.times.symbol then .tok ⟨Op.times, [c]⟩
  else if c = Op.divide.symbol then .tok ⟨Op.divide, [c]⟩
  else if c = Op.expon.symbol then .tok ⟨Op.expon, [c]⟩
  else if c = Op.lparen.symbol then .tok ⟨Op.lparen, [c]⟩
  else if c = Op.rparen.symbol then .tok ⟨Op.rparen, [c]⟩
  else .bad

/-- One-pass tokenization by structural recursion on the input. -/
def lex : List Char → List Char → Option Op → List Token × Option Char
  | [], numberStr, _ =>
    if numberStr = [] then ([], none) else ([⟨Op.number, numberStr⟩], none)
  | c :: cs, numberStr, prev =>
    if isNumeric c then lex cs (numberStr ++ [c]) prev
    else if numberStr = [] then
      match classifyChar c prev with
      | .ws => lex cs [] prev
      | .tok t => tcons t (lex cs [] (some t.tokenType))
      | .bad => ([], some c)
    else
      match classifyChar c (some Op.number) with
      | .ws => tcons ⟨Op.number, numberStr⟩ (lex cs [] (some Op.number))
      | .tok t => tcons ⟨Op.number, numberStr⟩ (tcons t (lex cs [] (some t.tokenType)))
      | .bad => ([⟨Op.number, numberStr⟩], some c)

/-- Flushing the pending number at a non-digit character: `lex` first emits
the buffered NUMBER token and then continues with an empty buffer and NUMBER
as previous token. -/
theorem lex_flush {c : Char} (cs : List Char) {numberStr : List Char} (prev : Option Op)
    (hd : isNumeric c = false) (hb : numberStr ≠ []) :
    lex (c :: cs) numberStr prev =
      tcons ⟨Op.number, numberStr⟩ (lex (c :: cs) [] (some Op.number)) := by
  cases hcl : classifyChar c (some Op.number) <;>
    simp [lex, hd, hb, hcl, tcons]

/-- `Tokenizer.next` on a non-digit character with an empty buffer acts
according to `classifyChar`. -/
theorem next_classify (c : Char) (cs : List Char) (prev : Option Op)
    (hd : isNumeric c = false) :
    Tokenizer.next (c :: cs) [] prev =
      match classifyChar c prev with
      | .ws => Tokenizer.next cs [] prev
      | .tok t => .tok t cs []
      | .bad => .err c := by
  rw [Tokenizer.next, classifyChar]
  simp only [hd, Bool.false_eq_true, ne_eq, eq_self_iff_true, not_true_eq_false, and_false,
    false_and, if_false]
  split_ifs <;> rfl

/-- `lex` computes exactly the unfolding of `Tokenizer.next`. -/
theorem lex_eq_next (rest : List Char) : ∀ (numberStr : List Char) (prev : Option Op),
    lex rest numberStr prev =
      match Tokenizer.next rest numberStr prev with
      | .tok t rest2 num2 => tcons t (lex rest2 num2 (some t.tokenType))
      | .stop => ([], none)
      | .err c => ([], some c) := by
  induction rest with
  | nil =>
    intro numberStr prev
    by_cases hb : numberStr = [] <;> simp [lex, Tokenizer.next, hb, tcons]
  | cons c cs ih =>
    intro numberStr prev
    by_cases hd : isNumeric c
    · have h1 : Tokenizer.next (c :: cs) numberStr prev
          = Tokenizer.next cs (numberStr ++ [c]) prev := by
        simp [Tokenizer.next, hd]
      have h2 : lex (c :: cs) numberStr prev = lex cs (numberStr ++ [c]) prev := by
        simp [lex, hd]
      rw [h1, h2, ih]
    · rw [Bool.not_eq_true] at hd
      by_cases hb : numberStr = []
      · subst hb
        rw [next_classify c cs prev hd]
        cases hcl : classifyChar c prev with
        | ws =>
          have hl : lex (c :: cs) [] prev = lex cs [] prev := by simp [lex, hd, hcl]
          rw [hl, ih]
        | tok t => simp [lex, hd, hcl]
        | bad => simp [lex, hd, hcl]
      · have h1 : Tokenizer.next (c :: cs) numberStr prev
            = .tok ⟨Op.number, numberStr⟩ (c :: cs) [] := by
          simp [Tokenizer.next, hd, hb]
        rw [h1, lex_flush cs prev hd hb]

/-- Each emitted token strictly decreases the tokenizer measure. -/
theorem next_tok_size {rest : List Char} : ∀ {numberStr : List Char} {prev : Option Op}
    {t : Token} {rest2 num2 : List Char},
    Tokenizer.next rest numberStr prev = .tok t rest2 num2 →
    2 * rest2.length + (if num2 = [] then 0 else 1) <
      2 * rest.length + (if numberStr = [] then 0 else 1) := by
  induction rest with
  | nil =>
    intro numberStr prev t rest2 num2 h
    by_cases hb : numberStr = [] <;> simp [Tokenizer.next, hb] at h
    obtain ⟨-, h2, h3⟩ := h
    subst h2; subst h3
    simp [hb]
  | cons c cs ih =>
    intro numberStr prev t rest2 num2 h
    by_cases hd : isNumeric c
    · rw [show Tokenizer.next (c :: cs) numberStr prev
          = Tokenizer.next cs (numberStr ++ [c]) prev from by simp [Tokenizer.next, hd]] at h
      have := ih h
      simp only [List.append_eq_nil, and_false, if_false] at this
      simp only [List.length_cons]
      split_ifs at this <;> split_ifs <;> omega
    · rw [Bool.not_eq_true] at hd
      by_cases hb : numberStr = []
      · subst hb
        rw [next_classify c cs prev hd] at h
        cases hcl : classifyChar c prev with
        | ws =>
          rw [hcl] at h
          have := ih h
          simp only [List.length_cons]
          split_ifs at this <;> split_ifs <;> omega
        | tok t2 =>
          rw [hcl] at h
          simp only [NextRes.tok.injEq] at h
          obtain ⟨-, h2, h3⟩ := h
          subst h2; subst h3
          simp
        | bad => rw [hcl] at h; cases h
      · rw [show Tokenizer.next (c :: cs) numberStr prev
            = .tok ⟨Op.number, numberStr⟩ (c :: cs) [] from by
              simp [Tokenizer.next, hd, hb]] at h
        simp only [NextRes.tok.injEq] at h
        obtain ⟨-, h2, h3⟩ := h
        subst h2; subst h3
        simp [hb]

/-- With sufficient fuel, the fuel-indexed driver computes `lex`. -/
theorem tokenizeAux_eq_lex : ∀ (fuel : Nat) (rest numberStr : List Char) (prev : Option Op),
    2 * rest.length + (if numberStr = [] then 0 else 1) < fuel →
    tokenizeAux fuel rest numberStr prev = lex rest numberStr prev := by
  intro fuel
  induction fuel with
  | zero => intro rest ns prev h; omega
  | succ fuel ih =>
    intro rest ns prev h
    rw [lex_eq_next]
    cases hn : Tokenizer.next rest ns prev with
    | tok t rest2 num2 =>
      simp only [tokenizeAux, hn]
      congr 1
      exact ih rest2 num2 (some t.tokenType) (by have := next_tok_size hn; omega)
    | stop => simp only [tokenizeAux, hn]
    | err c => simp only [tokenizeAux, hn]

/-- The faithful tokenizer equals the one-pass reformulation. -/
theorem tokenize_eq_lex (cs : List Char) : tokenize cs = lex cs [] none := by
  apply tokenizeAux_eq_lex
  show 2 * cs.length + 0 < 2 * cs.length + 1
  omega


-- Smoke tests of the embedding against the reference behaviour.
example : calculate "1 + 1" = .ok 2 := by with_unfolding_all decide
example : calculate " 2-1 + 2 " = .ok 3 := by with_unfolding_all decide
example : calculate "1-(-2)" = .ok 3 := by with_unfolding_all decide
example : calculate "2^3^2" = .ok 512 := by with_unfolding_all decide
example : calculate "-2^2" = .ok 4 := by with_unfolding_all decide
example : calculate "2 3" = .ok 3 := by with_unfolding_all decide
example : calculate "1+2)" = .error .indexError := by with_unfolding_all decide
example : calculate "(1+2" = .error (.valueError "mismatched parentheses") := by with_unfolding_all decide
example : calculate "" = .error .indexError := by with_unfolding_all decide
example : calculate "3/2" = .ok (3/2) := by with_unfolding_all decide
example : calculate "--2" = .error .indexError := by with_unfolding_all decide

/-! ### Expressions and their token-level rendering

`Expr` is the abstract syntax of arithmetic expressions; `TR e lv ts` says
that the token list `ts` renders `e` at binding level `lv` under the
program's operator table (levels: 1 additive, 2 multiplicative,
3 exponentiation, 4 unary minus, 5 atoms).  Unary minus applies to an atom,
and binds tighter than exponentiation, exactly as the operator table
prescribes (precedence 4 versus 3). -/

/-- Abstract syntax of arithmetic expressions. -/
inductive Expr where
  | num (n : Nat)
  | add (a b : Expr)
  | sub (a b : Expr)
  | mul (a b : Expr)
  | div (a b : Expr)
  | pow (a b : Expr)
  | neg (a : Expr)
deriving DecidableEq, Repr

/-- Denotation of an expression, by the operator table's evaluation rules. -/
def Expr.eval : Expr → ℚ
  | .num n => n
  | .add a b => a.eval + b.eval
  | .sub a b => a.eval - b.eval
  | .mul a b => a.eval * b.eval
  | .div a b => a.eval / b.eval
  | .pow a b => qpow a.eval b.eval
  | .neg a => 0 - a.eval

/-- Evaluation of `e` stays inside the exact-rational model of the source's
arithmetic: no division by zero (where the source raises
`ZeroDivisionError`), every exponent an integer (a non-integral exponent
makes the source compute an irrational float power that `qpow` cannot
represent), and no zero base under a negative exponent. -/
def Expr.SafeEval : Expr → Prop
  | .num _ => True
  | .add a b => a.SafeEval ∧ b.SafeEval
  | .sub a b => a.SafeEval ∧ b.SafeEval
  | .mul a b => a.SafeEval ∧ b.SafeEval
  | .div a b => a.SafeEval ∧ b.SafeEval ∧ b.eval ≠ 0
  | .pow a b => a.SafeEval ∧ b.SafeEval ∧ b.eval.den = 1 ∧ (a.eval = 0 → 0 ≤ b.eval.num)
  | .neg a => a.SafeEval

/-- Token-level rendering of expressions under the program's precedence
table. -/
inductive TR : Expr → Nat → List Token → Prop where
  | num (ds : List Char) (lv : Nat) (h1 : ds ≠ []) (h2 : ∀ c ∈ ds, c.isDigit = true) :
      TR (.num (parseNat ds)) lv [⟨Op.number, ds⟩]
  | paren {e : Expr} {ts : List Token} (lv : Nat) (h : TR e 1 ts) :
      TR e lv (⟨Op.lparen, ['(']⟩ :: ts ++ [⟨Op.rparen, [')']⟩])
  | add {a b : Expr} {ta tb : List Token} {lv : Nat} (hlv : lv ≤ 1)
      (ha : TR a 1 ta) (hb : TR b 2 tb) :
      TR (.add a b) lv (ta ++ ⟨Op.plus, ['+']⟩ :: tb)
  | sub {a b : Expr} {ta tb : List Token} {lv : Nat} (hlv : lv ≤ 1)
      (ha : TR a 1 ta) (hb : TR b 2 tb) :
      TR (.sub a b) lv (ta ++ ⟨Op.minus, ['-']⟩ :: tb)
  | mul {a b : Expr} {ta tb : List Token} {lv : Nat} (hlv : lv ≤ 2)
      (ha : TR a 2 ta) (hb : TR b 3 tb) :
      TR (.mul a b) lv (ta ++ ⟨Op.times, ['*']⟩ :: tb)
  | div {a b : Expr} {ta tb : List Token} {lv : Nat} (hlv : lv ≤ 2)
      (ha : TR a 2 ta) (hb : TR b 3 tb) :
      TR (.div a b) lv (ta ++ ⟨Op.divide, ['/']⟩ :: tb)
  | pow {a b : Expr} {ta tb : List Token} {lv : Nat} (hlv : lv ≤ 3)
      (ha : TR a 4 ta) (hb : TR b 3 tb) :
      TR (.pow a b) lv (ta ++ ⟨Op.expon, ['^']⟩ :: tb)
  | neg {a : Expr} {ta : List Token} {lv : Nat} (hlv : lv ≤ 4)
      (ha : TR a 5 ta) :
      TR (.neg a) lv (⟨Op.uminus, ['-']⟩ :: ta)

/-! ### Stack-segment lemmas for the evaluator -/

/-- Fold `OutputStack.append` over a list of operators (head first). -/
def applyOps : List Op → List ℚ → Except Err (List ℚ)
  | [], out => .ok out
  | op :: rest, out =>
    match OutputStack.appendOp op out with
    | .ok out2 => applyOps rest out2
    | .error e => .error e

theorem applyOps_append (xs ys : List Op) (out : List ℚ) :
    applyOps (xs ++ ys) out =
      match applyOps xs out with
      | .ok out2 => applyOps ys out2
      | .error e => .error e := by
  induction xs generalizing out with
  | nil => simp [applyOps]
  | cons op xs ih =>
    simp only [List.cons_append, applyOps]
    cases OutputStack.appendOp op out with
    | ok out2 => exact ih out2
    | error e => rfl

/-- The head of the operator stack blocks the pop loop of every incoming
operator of precedence at least `lv`. -/
def Guard (lv : Nat) : List Op → Prop
  | [] => True
  | h :: _ => h = Op.lparen ∨ h.prec < lv ∨ (h.prec = lv ∧ h.leftAssoc = false)

theorem Guard_mono {lv lv2 : Nat} (hle : lv ≤ lv2) {ops : List Op}
    (h : Guard lv ops) : Guard lv2 ops := by
  cases ops with
  | nil => trivial
  | cons a t =>
    rcases h with h | h | ⟨h1, h2⟩
    · exact Or.inl h
    · exact Or.inr (Or.inl (lt_of_lt_of_le h hle))
    · rcases Nat.eq_or_lt_of_le hle with he | hlt
      · exact Or.inr (Or.inr ⟨he ▸ h1, h2⟩)
      · exact Or.inr (Or.inl (by omega))

/-- Under `Guard lv`, an incoming operator of precedence at least `lv` pops
nothing. -/
theorem reduceWhile_stop (tok : Op) {lv : Nat} {ops : List Op} (hg : Guard lv ops)
    (hp : lv ≤ tok.prec) (out : List ℚ) :
    reduceWhile tok ops out = .ok (ops, out) := by
  cases ops with
  | nil => rfl
  | cons a t =>
    have hcond : ¬ (a ≠ Op.lparen ∧ popCondition a tok) := by
      rcases hg with h | h | ⟨h1, h2⟩
      · exact fun hc => hc.1 h
      · rintro ⟨-, hgt | ⟨heq, -, -⟩⟩ <;> omega
      · rintro ⟨-, hgt | ⟨heq, hla, -⟩⟩
        · omega
        · rw [h2] at hla; cases hla
    simp only [reduceWhile, if_neg hcond]

/-- The pop loop applied to a fully poppable segment on top of a guarded
stack reduces the whole segment and stops. -/
theorem reduceWhile_seg {tok : Op} {ops : List Op}
    (hstop : ∀ out2, reduceWhile tok ops out2 = .ok (ops, out2)) :
    ∀ (xops : List Op) (out : List ℚ),
    (∀ op ∈ xops, op ≠ Op.lparen ∧ popCondition op tok) →
    reduceWhile tok (xops ++ ops) out =
      match applyOps xops out with
      | .ok out2 => .ok (ops, out2)
      | .error e => .error e := by
  intro xops
  induction xops with
  | nil => intro out h; simp [applyOps, hstop out]
  | cons op xs ih =>
    intro out h
    have hop := h op (List.mem_cons_self op xs)
    simp only [List.cons_append, reduceWhile, if_pos hop, applyOps]
    cases OutputStack.appendOp op out with
    | ok out2 => exact ih out2 (fun o ho => h o (List.mem_cons_of_mem op ho))
    | error e => rfl

/-- The RPAREN loop pops an lparen-free segment and discards the matching
LPAREN under it. -/
theorem rparenLoop_seg (ops : List Op) : ∀ (xops : List Op) (out : List ℚ),
    (∀ op ∈ xops, op ≠ Op.lparen) →
    rparenLoop (xops ++ Op.lparen :: ops) out =
      match applyOps xops out with
      | .ok out2 => .ok (ops, out2)
      | .error e => .error e := by
  intro xops
  induction xops with
  | nil => intro out h; simp [rparenLoop, applyOps]
  | cons op xs ih =>
    intro out h
    have hop := h op (List.mem_cons_self op xs)
    simp only [List.cons_append, rparenLoop, if_pos hop, applyOps]
    cases OutputStack.appendOp op out with
    | ok out2 => exact ih out2 (fun o ho => h o (List.mem_cons_of_mem op ho))
    | error e => rfl

/-- Draining an lparen-free operator stack is plain reduction. -/
theorem drain_seg : ∀ (xops : List Op) (out : List ℚ),
    (∀ op ∈ xops, op ≠ Op.lparen) →
    drain xops out = applyOps xops out := by
  intro xops
  induction xops with
  | nil => intro out h; rfl
  | cons op xs ih =>
    intro out h
    have hop := h op (List.mem_cons_self op xs)
    simp only [drain, if_neg hop, applyOps]
    cases OutputStack.appendOp op out with
    | ok out2 => exact ih out2 (fun o ho => h o (List.mem_cons_of_mem op ho))
    | error e => rfl

/-- Shape of the operators deposited on the stack while processing a level
`lv` expression: no LPAREN, precedence at least `lv`, and at exactly `lv`
either left-associative or the right-associative `^` (possible only at
`lv = 3`). -/
def SegOpOk (lv : Nat) (op : Op) : Prop :=
  op ≠ Op.lparen ∧ lv ≤ op.prec ∧ (op.prec = lv → (op.leftAssoc = true ∨ op = Op.expon))

theorem SegOpOk_antitone {lv lv2 : Nat} (h : lv2 ≤ lv) {op : Op}
    (ho : SegOpOk lv op) : SegOpOk lv2 op := by
  obtain ⟨h1, h2, h3⟩ := ho
  exact ⟨h1, le_trans h h2, fun hp => h3 (by omega)⟩

theorem SegOpOk_popCond_left {lv : Nat} {op tok : Op} (ho : SegOpOk lv op)
    (htok : tok.prec = lv) (hla : tok.leftAssoc = true) (hlv : lv ≤ 2) :
    popCondition op tok := by
  obtain ⟨-, h2, h3⟩ := ho
  rcases Nat.lt_or_ge lv op.prec with hlt | hge
  · exact Or.inl (by omega)
  · have heq : op.prec = lv := le_antisymm hge h2
    rcases h3 heq with hl | he
    · exact Or.inr ⟨by omega, hl, hla⟩
    · subst he
      simp only [Op.prec] at heq
      omega

theorem SegOpOk_popCond_expon {op : Op} (ho : SegOpOk 4 op) :
    popCondition op Op.expon := by
  obtain ⟨-, h2, -⟩ := ho
  exact Or.inl (show 3 < op.prec by omega)

/-! ### Unfolding lemmas for the evaluator loop -/

theorem processToken_number (out : List ℚ) (ops : List Op) (ds : List Char) :
    processToken (out, ops) ⟨Op.number, ds⟩ = .ok (((parseNat ds : ℚ)) :: out, ops) := rfl

theorem processToken_lparen (out : List ℚ) (ops : List Op) (v : List Char) :
    processToken (out, ops) ⟨Op.lparen, v⟩ = .ok (out, Op.lparen :: ops) := rfl

theorem processToken_rparen (out : List ℚ) (ops : List Op) (v : List Char) :
    processToken (out, ops) ⟨Op.rparen, v⟩ =
      if ops = [] then .error (.valueError "mismatched parentheses")
      else
        match rparenLoop ops out with
        | .ok (ops2, out2) => .ok (out2, ops2)
        | .error e => .error e := rfl

theorem processToken_arith (out : List ℚ) (ops : List Op) {op : Op} (v : List Char)
    (hmem : op ∈ arithmeticOperators ++ [Op.uminus]) (hnnum : op ≠ Op.number) :
    processToken (out, ops) ⟨op, v⟩ =
      match reduceWhile op ops out with
      | .ok (ops2, out2) => .ok (out2, op :: ops2)
      | .error e => .error e := by
  simp only [processToken, if_neg hnnum, if_pos hmem]

theorem processTokens_nil (st : List ℚ × List Op) : processTokens [] st = .ok st := rfl

theorem processTokens_cons (t : Token) (ts : List Token) (st : List ℚ × List Op) :
    processTokens (t :: ts) st =
      match processToken st t with
      | .ok st2 => processTokens ts st2
      | .error e => .error e := by
  simp only [processTokens, List.foldlM_cons]
  cases processToken st t <;> rfl

theorem processTokens_append (ts1 ts2 : List Token) (st : List ℚ × List Op) :
    processTokens (ts1 ++ ts2) st =
      match processTokens ts1 st with
      | .ok st2 => processTokens ts2 st2
      | .error e => .error e := by
  induction ts1 generalizing st with
  | nil => rfl
  | cons t ts ih =>
    simp only [List.cons_append, processTokens_cons]
    cases processToken st t with
    | ok st2 => exact ih st2
    | error e => rfl

theorem processTokens_append_ok {ts1 : List Token} {st st2 : List ℚ × List Op}
    (h : processTokens ts1 st = .ok st2) (ts2 : List Token) :
    processTokens (ts1 ++ ts2) st = processTokens ts2 st2 := by
  rw [processTokens_append, h]

theorem processTokens_cons_ok {t : Token} {ts : List Token} {st st2 : List ℚ × List Op}
    (h : processToken st t = .ok st2) :
    processTokens (t :: ts) st = processTokens ts st2 := by
  rw [processTokens_cons, h]

theorem processToken_arith_ok {op : Op} (v : List Char)
    (hmem : op ∈ arithmeticOperators ++ [Op.uminus]) (hnnum : op ≠ Op.number)
    {out : List ℚ} {ops ops2 : List Op} {out2 : List ℚ}
    (h : reduceWhile op ops out = .ok (ops2, out2)) :
    processToken (out, ops) ⟨op, v⟩ = .ok (out2, op :: ops2) := by
  rw [processToken_arith out ops v hmem hnnum, h]

theorem applyOps_append_ok {xs : List Op} {out out2 : List ℚ}
    (h : applyOps xs out = .ok out2) (ys : List Op) :
    applyOps (xs ++ ys) out = applyOps ys out2 := by
  rw [applyOps_append, h]

/-! ### Correctness of the shunting-yard evaluator over rendered tokens -/

/-- Invariant carried through `TR_correct`: processing the tokens of an
expression rendered at level `lv` from a guarded state deposits a new
output-stack segment and a new operator-stack segment; reducing the operator
segment over the output segment yields exactly the expression's value. -/
def ShuntInv (v : ℚ) (lv : Nat) (ts : List Token) : Prop :=
  ∀ out ops, Guard lv ops → ∃ xout xops,
    processTokens ts (out, ops) = .ok (xout ++ out, xops ++ ops) ∧
    (∀ op ∈ xops, SegOpOk lv op) ∧
    (∀ tail, applyOps xops (xout ++ tail) = .ok (v :: tail))

/-- The step shared by the four left-associative binary operators: a
level-`le` operand, the operator, a level-`le + 1` operand. -/
theorem shuntBin (tok : Op) (le : Nat)
    (htprec : tok.prec = le) (htla : tok.leftAssoc = true) (hle2 : le ≤ 2)
    (hmem : tok ∈ arithmeticOperators ++ [Op.uminus]) (hnnum : tok ≠ Op.number)
    (hnum : tok ≠ Op.uminus) (hnlp : tok ≠ Op.lparen)
    {va vb : ℚ} {ta tb : List Token} {v : List Char}
    (iha : ShuntInv va le ta) (ihb : ShuntInv vb (le + 1) tb)
    {lv : Nat} (hlv : lv ≤ le) :
    ShuntInv (Op.calcFn tok va vb) lv (ta ++ ⟨tok, v⟩ :: tb) := by
  intro out ops hguard
  obtain ⟨aout, aops, ha1, ha2, ha3⟩ := iha out ops (Guard_mono hlv hguard)
  have hg2 : Guard (le + 1) (tok :: ops) := Or.inr (Or.inl (by omega))
  obtain ⟨bout, bops, hb1, hb2, hb3⟩ := ihb (va :: out) (tok :: ops) hg2
  have hstop : ∀ out2, reduceWhile tok ops out2 = .ok (ops, out2) :=
    fun out2 => reduceWhile_stop tok hguard (by omega) out2
  have hred : reduceWhile tok (aops ++ ops) (aout ++ out) = .ok (ops, va :: out) := by
    rw [reduceWhile_seg hstop aops (aout ++ out)
      (fun op ho => ⟨(ha2 op ho).1, SegOpOk_popCond_left (ha2 op ho) htprec htla hle2⟩),
      ha3 out]
  refine ⟨bout ++ [va], bops ++ [tok], ?_, ?_, ?_⟩
  · rw [processTokens_append_ok ha1,
      processTokens_cons_ok (processToken_arith_ok v hmem hnnum hred), hb1]
    simp [List.append_assoc]
  · intro op hop
    rcases List.mem_append.mp hop with h | h
    · exact SegOpOk_antitone (by omega) (hb2 op h)
    · rw [List.mem_singleton] at h
      subst h
      exact ⟨hnlp, by omega, fun hp => Or.inl htla⟩
  · intro tail
    rw [show (bout ++ [va]) ++ tail = bout ++ (va :: tail) by simp,
      applyOps_append_ok (hb3 (va :: tail)) [tok]]
    simp only [applyOps, OutputStack.appendOp, if_neg hnum]

/-- Shunting-yard correctness: processing the token rendering of an
expression from a guarded state deposits a segment that reduces to the
expression's value. -/
theorem TR_correct {e : Expr} {lv : Nat} {ts : List Token} (h : TR e lv ts) :
    ShuntInv e.eval lv ts := by
  induction h with
  | @num ds lv h1 h2 =>
    intro out ops hguard
    refine ⟨[(parseNat ds : ℚ)], [], ?_, by simp, ?_⟩
    · rw [processTokens_cons_ok (processToken_number out ops ds), processTokens_nil]
      rfl
    · intro tail
      simp [applyOps, Expr.eval]
  | @paren e ts1 lv h ih =>
    intro out ops hguard
    obtain ⟨xout1, xops1, h1, h2, h3⟩ := ih out (Op.lparen :: ops) (Or.inl rfl)
    have hrp : processToken (xout1 ++ out, xops1 ++ Op.lparen :: ops) ⟨Op.rparen, [')']⟩
        = .ok (e.eval :: out, ops) := by
      rw [processToken_rparen, if_neg (show ¬(xops1 ++ Op.lparen :: ops = []) by simp),
        rparenLoop_seg ops xops1 (xout1 ++ out) (fun op ho => (h2 op ho).1), h3 out]
    refine ⟨[e.eval], [], ?_, by simp, ?_⟩
    · rw [List.cons_append, processTokens_cons_ok (processToken_lparen out ops ['(']),
        processTokens_append_ok h1, processTokens_cons_ok hrp, processTokens_nil]
      rfl
    · intro tail
      simp [applyOps]
  | @add a b ta tb lv hlv ha hb iha ihb =>
    exact shuntBin Op.plus 1 rfl rfl (by decide) (by decide) (by decide) (by decide)
      (by decide) iha ihb hlv
  | @sub a b ta tb lv hlv ha hb iha ihb =>
    exact shuntBin Op.minus 1 rfl rfl (by decide) (by decide) (by decide) (by decide)
      (by decide) iha ihb hlv
  | @mul a b ta tb lv hlv ha hb iha ihb =>
    exact shuntBin Op.times 2 rfl rfl (by decide) (by decide) (by decide) (by decide)
      (by decide) iha ihb hlv
  | @div a b ta tb lv hlv ha hb iha ihb =>
    exact shuntBin Op.divide 2 rfl rfl (by decide) (by decide) (by decide) (by decide)
      (by decide) iha ihb hlv
  | @pow a b ta tb lv hlv ha hb iha ihb =>
    intro out ops hguard
    obtain ⟨aout, aops, ha1, ha2, ha3⟩ := iha out ops (Guard_mono (by omega) hguard)
    have hstop : ∀ out2, reduceWhile Op.expon ops out2 = .ok (ops, out2) :=
      fun out2 => reduceWhile_stop Op.expon hguard hlv out2
    have hred : reduceWhile Op.expon (aops ++ ops) (aout ++ out) = .ok (ops, a.eval :: out) := by
      rw [reduceWhile_seg hstop aops (aout ++ out)
        (fun op ho => ⟨(ha2 op ho).1, SegOpOk_popCond_expon (ha2 op ho)⟩), ha3 out]
    have hg2 : Guard 3 (Op.expon :: ops) := Or.inr (Or.inr ⟨rfl, rfl⟩)
    obtain ⟨bout, bops, hb1, hb2, hb3⟩ := ihb (a.eval :: out) (Op.expon :: ops) hg2
    refine ⟨bout ++ [a.eval], bops ++ [Op.expon], ?_, ?_, ?_⟩
    · rw [processTokens_append_ok ha1,
        processTokens_cons_ok (processToken_arith_ok ['^'] (by decide) (by decide) hred), hb1]
      simp [List.append_assoc]
    · intro op hop
      rcases List.mem_append.mp hop with hmem2 | hmem2
      · exact SegOpOk_antitone hlv (hb2 op hmem2)
      · rw [List.mem_singleton] at hmem2
        subst hmem2
        exact ⟨by decide, hlv, fun hp => Or.inr rfl⟩
    · intro tail
      rw [show (bout ++ [a.eval]) ++ tail = bout ++ (a.eval :: tail) by simp,
        applyOps_append_ok (hb3 (a.eval :: tail)) [Op.expon]]
      simp [applyOps, OutputStack.appendOp, Expr.eval, Op.calcFn]
  | @neg a ta lv hlv ha iha =>
    intro out ops hguard
    have hstop : ∀ out2, reduceWhile Op.uminus ops out2 = .ok (ops, out2) :=
      fun out2 => reduceWhile_stop Op.uminus hguard hlv out2
    have hg2 : Guard 5 (Op.uminus :: ops) := Or.inr (Or.inl (by decide))
    obtain ⟨aout, aops, ha1, ha2, ha3⟩ := iha out (Op.uminus :: ops) hg2
    refine ⟨aout, aops ++ [Op.uminus], ?_, ?_, ?_⟩
    · rw [processTokens_cons_ok (processToken_arith_ok ['-'] (by decide) (by decide) (hstop out)),
        ha1]
      simp [List.append_assoc]
    · intro op hop
      rcases List.mem_append.mp hop with hmem2 | hmem2
      · exact SegOpOk_antitone (by omega) (ha2 op hmem2)
      · rw [List.mem_singleton] at hmem2
        subst hmem2
        exact ⟨by decide, hlv, fun hp => Or.inl rfl⟩
    · intro tail
      rw [applyOps_append_ok (ha3 tail) [Op.uminus]]
      simp [applyOps, OutputStack.appendOp, Expr.eval, Op.calcFn]

/-! ### String-level rendering and tokenizer correctness on renders -/

/-- String-level rendering of expressions (no whitespace): `R e lv s` says
`s` is a well-formed rendering of `e` at binding level `lv` under the
program's operator table.  Well-formed expression strings are exactly the
`s` with `R e 1 s` for some `e`. -/
inductive R : Expr → Nat → List Char → Prop where
  | num (ds : List Char) (lv : Nat) (h1 : ds ≠ []) (h2 : ∀ c ∈ ds, c.isDigit = true) :
      R (.num (parseNat ds)) lv ds
  | paren {e : Expr} {s : List Char} (lv : Nat) (h : R e 1 s) :
      R e lv ('(' :: s ++ [')'])
  | add {a b : Expr} {sa sb : List Char} {lv : Nat} (hlv : lv ≤ 1)
      (ha : R a 1 sa) (hb : R b 2 sb) : R (.add a b) lv (sa ++ '+' :: sb)
  | sub {a b : Expr} {sa sb : List Char} {lv : Nat} (hlv : lv ≤ 1)
      (ha : R a 1 sa) (hb : R b 2 sb) : R (.sub a b) lv (sa ++ '-' :: sb)
  | mul {a b : Expr} {sa sb : List Char} {lv : Nat} (hlv : lv ≤ 2)
      (ha : R a 2 sa) (hb : R b 3 sb) : R (.mul a b) lv (sa ++ '*' :: sb)
  | div {a b : Expr} {sa sb : List Char} {lv : Nat} (hlv : lv ≤ 2)
      (ha : R a 2 sa) (hb : R b 3 sb) : R (.div a b) lv (sa ++ '/' :: sb)
  | pow {a b : Expr} {sa sb : List Char} {lv : Nat} (hlv : lv ≤ 3)
      (ha : R a 4 sa) (hb : R b 3 sb) : R (.pow a b) lv (sa ++ '^' :: sb)
  | neg {a : Expr} {sa : List Char} {lv : Nat} (hlv : lv ≤ 4)
      (ha : R a 5 sa) : R (.neg a) lv ('-' :: sa)

/-- A continuation that does not extend a digit run. -/
def Boundary : List Char → Prop
  | [] => True
  | c :: _ => c.isDigit = false

/-- A previous token after which `-` scans as unary. -/
def PrevOk (prev : Option Op) : Prop :=
  prev ≠ some Op.number ∧ prev ≠ some Op.rparen

theorem unaryMinusCond_of_prevOk {prev : Option Op} (h : PrevOk prev) :
    unaryMinusCond prev = true := by
  obtain ⟨h1, h2⟩ := h
  cases prev with
  | none => rfl
  | some t => cases t <;> simp_all [unaryMinusCond]

theorem classify_space (prev : Option Op) : classifyChar ' ' prev = .ws := rfl

theorem classify_plus (prev : Option Op) :
    classifyChar '+' prev = .tok ⟨Op.plus, ['+']⟩ := by
  simp [classifyChar, Op.symbol]

theorem classify_times (prev : Option Op) :
    classifyChar '*' prev = .tok ⟨Op.times, ['*']⟩ := by
  simp [classifyChar, Op.symbol]

theorem classify_divide (prev : Option Op) :
    classifyChar '/' prev = .tok ⟨Op.divide, ['/']⟩ := by
  simp [classifyChar, Op.symbol]

theorem classify_expon (prev : Option Op) :
    classifyChar '^' prev = .tok ⟨Op.expon, ['^']⟩ := by
  simp [classifyChar, Op.symbol]

theorem classify_lparen (prev : Option Op) :
    classifyChar '(' prev = .tok ⟨Op.lparen, ['(']⟩ := by
  simp [classifyChar, Op.symbol]

theorem classify_rparen (prev : Option Op) :
    classifyChar ')' prev = .tok ⟨Op.rparen, [')']⟩ := by
  simp [classifyChar, Op.symbol]

theorem classify_uminus {prev : Option Op} (h : PrevOk prev) :
    classifyChar '-' prev = .tok ⟨Op.uminus, ['-']⟩ := by
  simp [classifyChar, Op.symbol, unaryMinusCond_of_prevOk h]

theorem classify_bminus {t : Op} (h : t = Op.number ∨ t = Op.rparen) :
    classifyChar '-' (some t) = .tok ⟨Op.minus, ['-']⟩ := by
  rcases h with h | h <;> subst h <;> simp [classifyChar, Op.symbol, unaryMinusCond]

/-- Scanning a digit run followed by a boundary emits one NUMBER token
carrying the buffered digits followed by the run. -/
theorem lex_digits : ∀ (ds : List Char), (∀ c ∈ ds, c.isDigit = true) →
    ∀ (buf : List Char) (prev : Option Op) (k : List Char),
    buf ++ ds ≠ [] → Boundary k →
    lex (ds ++ k) buf prev =
      ((⟨Op.number, buf ++ ds⟩ : Token) :: (lex k [] (some Op.number)).1,
        (lex k [] (some Op.number)).2) := by
  intro ds
  induction ds with
  | nil =>
    intro hdig buf prev k hne hk
    rw [List.append_nil] at hne
    simp only [List.append_nil, List.nil_append]
    cases k with
    | nil => simp [lex, hne]
    | cons c k2 =>
      rw [lex_flush k2 prev hk hne]
      simp [tcons]
  | cons d ds ih =>
    intro hdig buf prev k hne hk
    have hd : isNumeric d = true := hdig d (List.mem_cons_self d ds)
    have h2 : ∀ c ∈ ds, c.isDigit = true := fun c hc => hdig c (List.mem_cons_of_mem d hc)
    rw [List.cons_append,
      show lex (d :: (ds ++ k)) buf prev = lex (ds ++ k) (buf ++ [d]) prev from by
        simp [lex, hd],
      ih h2 (buf ++ [d]) prev k (by simp) hk]
    simp

/-- Tokenizer correctness on rendered expression strings: scanning a render
followed by a boundary continuation emits the token rendering and continues
with NUMBER or RPAREN as previous token. -/
theorem R_lex {e : Expr} {lv : Nat} {s : List Char} (h : R e lv s) :
    ∀ (k : List Char) (prev : Option Op), PrevOk prev → Boundary k →
    ∃ (ts : List Token) (endp : Op), TR e lv ts ∧ (endp = Op.number ∨ endp = Op.rparen) ∧
      lex (s ++ k) [] prev =
        (ts ++ (lex k [] (some endp)).1, (lex k [] (some endp)).2) := by
  induction h with
  | @num ds lv h1 h2 =>
    intro k prev hp hk
    refine ⟨[⟨Op.number, ds⟩], Op.number, TR.num ds lv h1 h2, Or.inl rfl, ?_⟩
    have := lex_digits ds h2 [] prev k (by simpa using h1) hk
    simpa using this
  | @paren e s1 lv h ih =>
    intro k prev hp hk
    obtain ⟨ts1, endp1, ht1, he1, hl1⟩ :=
      ih (')' :: k) (some Op.lparen) ⟨by decide, by decide⟩ rfl
    have hshape : (('(' :: s1 ++ [')']) ++ k) = '(' :: (s1 ++ (')' :: k)) := by simp
    have hstep : lex ('(' :: (s1 ++ (')' :: k))) [] prev
        = tcons ⟨Op.lparen, ['(']⟩ (lex (s1 ++ (')' :: k)) [] (some Op.lparen)) := by
      simp [lex, isNumeric, classify_lparen]
    have hrp : lex (')' :: k) [] (some endp1)
        = tcons ⟨Op.rparen, [')']⟩ (lex k [] (some Op.rparen)) := by
      simp [lex, isNumeric, classify_rparen]
    refine ⟨⟨Op.lparen, ['(']⟩ :: ts1 ++ [⟨Op.rparen, [')']⟩], Op.rparen,
      TR.paren lv ht1, Or.inr rfl, ?_⟩
    rw [hshape, hstep, hl1, hrp]
    simp [tcons]
  | @add a b sa sb lv hlv ha hb iha ihb =>
    intro k prev hp hk
    have hshape : ((sa ++ '+' :: sb) ++ k) = sa ++ ('+' :: (sb ++ k)) := by simp
    obtain ⟨tsa, endpa, hta, hea, hla⟩ := iha ('+' :: (sb ++ k)) prev hp rfl
    obtain ⟨tsb, endpb, htb, heb, hlb⟩ := ihb k (some Op.plus) ⟨by decide, by decide⟩ hk
    have hstep : lex ('+' :: (sb ++ k)) [] (some endpa)
        = tcons ⟨Op.plus, ['+']⟩ (lex (sb ++ k) [] (some Op.plus)) := by
      simp [lex, isNumeric, classify_plus]
    refine ⟨tsa ++ ⟨Op.plus, ['+']⟩ :: tsb, endpb, TR.add hlv hta htb, heb, ?_⟩
    rw [hshape, hla, hstep, hlb]
    simp [tcons]
  | @sub a b sa sb lv hlv ha hb iha ihb =>
    intro k prev hp hk
    have hshape : ((sa ++ '-' :: sb) ++ k) = sa ++ ('-' :: (sb ++ k)) := by simp
    obtain ⟨tsa, endpa, hta, hea, hla⟩ := iha ('-' :: (sb ++ k)) prev hp rfl
    obtain ⟨tsb, endpb, htb, heb, hlb⟩ := ihb k (some Op.minus) ⟨by decide, by decide⟩ hk
    have hstep : lex ('-' :: (sb ++ k)) [] (some endpa)
        = tcons ⟨Op.minus, ['-']⟩ (lex (sb ++ k) [] (some Op.minus)) := by
      simp [lex, isNumeric, classify_bminus hea]
    refine ⟨tsa ++ ⟨Op.minus, ['-']⟩ :: tsb, endpb, TR.sub hlv hta htb, heb, ?_⟩
    rw [hshape, hla, hstep, hlb]
    simp [tcons]
  | @mul a b sa sb lv hlv ha hb iha ihb =>
    intro k prev hp hk
    have hshape : ((sa ++ '*' :: sb) ++ k) = sa ++ ('*' :: (sb ++ k)) := by simp
    obtain ⟨tsa, endpa, hta, hea, hla⟩ := iha ('*' :: (sb ++ k)) prev hp rfl
    obtain ⟨tsb, endpb, htb, heb, hlb⟩ := ihb k (some Op.times) ⟨by decide, by decide⟩ hk
    have hstep : lex ('*' :: (sb ++ k)) [] (some endpa)
        = tcons ⟨Op.times, ['*']⟩ (lex (sb ++ k) [] (some Op.times)) := by
      simp [lex, isNumeric, classify_times]
    refine ⟨tsa ++ ⟨Op.times, ['*']⟩ :: tsb, endpb, TR.mul hlv hta htb, heb, ?_⟩
    rw [hshape, hla, hstep, hlb]
    simp [tcons]
  | @div a b sa sb lv hlv ha hb iha ihb =>
    intro k prev hp hk
    have hshape : ((sa ++ '/' :: sb) ++ k) = sa ++ ('/' :: (sb ++ k)) := by simp
    obtain ⟨tsa, endpa, hta, hea, hla⟩ := iha ('/' :: (sb ++ k)) prev hp rfl
    obtain ⟨tsb, endpb, htb, heb, hlb⟩ := ihb k (some Op.divide) ⟨by decide, by decide⟩ hk
    have hstep : lex ('/' :: (sb ++ k)) [] (some endpa)
        = tcons ⟨Op.divide, ['/']⟩ (lex (sb ++ k) [] (some Op.divide)) := by
      simp [lex, isNumeric, classify_divide]
    refine ⟨tsa ++ ⟨Op.divide, ['/']⟩ :: tsb, endpb, TR.div hlv hta htb, heb, ?_⟩
    rw [hshape, hla, hstep, hlb]
    simp [tcons]
  | @pow a b sa sb lv hlv ha hb iha ihb =>
    intro k prev hp hk
    have hshape : ((sa ++ '^' :: sb) ++ k) = sa ++ ('^' :: (sb ++ k)) := by simp
    obtain ⟨tsa, endpa, hta, hea, hla⟩ := iha ('^' :: (sb ++ k)) prev hp rfl
    obtain ⟨tsb, endpb, htb, heb, hlb⟩ := ihb k (some Op.expon) ⟨by decide, by decide⟩ hk
    have hstep : lex ('^' :: (sb ++ k)) [] (some endpa)
        = tcons ⟨Op.expon, ['^']⟩ (lex (sb ++ k) [] (some Op.expon)) := by
      simp [lex, isNumeric, classify_expon]
    refine ⟨tsa ++ ⟨Op.expon, ['^']⟩ :: tsb, endpb, TR.pow hlv hta htb, heb, ?_⟩
    rw [hshape, hla, hstep, hlb]
    simp [tcons]
  | @neg a sa lv hlv ha iha =>
    intro k prev hp hk
    obtain ⟨tsa, endpa, hta, hea, hla⟩ := iha k (some Op.uminus) ⟨by decide, by decide⟩ hk
    have hstep : lex ('-' :: (sa ++ k)) [] prev
        = tcons ⟨Op.uminus, ['-']⟩ (lex (sa ++ k) [] (some Op.uminus)) := by
      simp [lex, isNumeric, classify_uminus hp]
    refine ⟨⟨Op.uminus, ['-']⟩ :: tsa, endpa, TR.neg hlv hta, hea, ?_⟩
    rw [List.cons_append, hstep, hla]
    simp [tcons]

/-- End-to-end correctness of `calculate` on well-formed expression strings:
the result is the expression's value under the program's precedence table. -/
theorem calculate_correct {e : Expr} {s : List Char} (h : R e 1 s) :
    calculate (String.mk s) = .ok e.eval := by
  obtain ⟨ts, endp, ht, he, hl⟩ := R_lex h [] none ⟨by decide, by decide⟩ trivial
  rw [List.append_nil] at hl
  have hlex : lex s [] none = (ts, none) := by
    rw [hl]
    simp [lex]
  obtain ⟨xout, xops, h1, h2, h3⟩ := TR_correct ht [] [] trivial
  simp only [List.append_nil] at h1
  have hdrain : drain xops xout = .ok [e.eval] := by
    rw [drain_seg xops xout (fun op ho => (h2 op ho).1)]
    simpa using h3 []
  have hstep1 : tokenize (String.mk s).data = (ts, none) := by
    rw [show (String.mk s).data = s from rfl, tokenize_eq_lex, hlex]
  unfold calculate
  simp only [hstep1, h1, hdrain, OutputStack.result]

/-- Modelled from the spec: rendering of expressions under the spec's stated
conventional precedence ordering — exponentiation > unary minus >
multiplication/division > addition/subtraction, exponentiation
right-associative, the others left-associative, standard parenthesis
grouping.  Used only to state claims that compare the program against that
ordering.  Levels: 1 additive, 2 multiplicative, 3 unary minus (nestable),
4 exponentiation, 5 atoms. -/
inductive Rconv : Expr → Nat → List Char → Prop where
  | num (ds : List Char) (lv : Nat) (h1 : ds ≠ []) (h2 : ∀ c ∈ ds, c.isDigit = true) :
      Rconv (.num (parseNat ds)) lv ds
  | paren {e : Expr} {s : List Char} (lv : Nat) (h : Rconv e 1 s) :
      Rconv e lv ('(' :: s ++ [')'])
  | add {a b : Expr} {sa sb : List Char} {lv : Nat} (hlv : lv ≤ 1)
      (ha : Rconv a 1 sa) (hb : Rconv b 2 sb) : Rconv (.add a b) lv (sa ++ '+' :: sb)
  | sub {a b : Expr} {sa sb : List Char} {lv : Nat} (hlv : lv ≤ 1)
      (ha : Rconv a 1 sa) (hb : Rconv b 2 sb) : Rconv (.sub a b) lv (sa ++ '-' :: sb)
  | mul {a b : Expr} {sa sb : List Char} {lv : Nat} (hlv : lv ≤ 2)
      (ha : Rconv a 2 sa) (hb : Rconv b 3 sb) : Rconv (.mul a b) lv (sa ++ '*' :: sb)
  | div {a b : Expr} {sa sb : List Char} {lv : Nat} (hlv : lv ≤ 2)
      (ha : Rconv a 2 sa) (hb : Rconv b 3 sb) : Rconv (.div a b) lv (sa ++ '/' :: sb)
  | neg {a : Expr} {sa : List Char} {lv : Nat} (hlv : lv ≤ 3)
      (ha : Rconv a 3 sa) : Rconv (.neg a) lv ('-' :: sa)
  | pow {a b : Expr} {sa sb : List Char} {lv : Nat} (hlv : lv ≤ 4)
      (ha : Rconv a 5 sa) (hb : Rconv b 4 sb) : Rconv (.pow a b) lv (sa ++ '^' :: sb)

/-! ### Whitespace insensitivity -/

/-- Remove all spaces. -/
def despace (cs : List Char) : List Char := cs.filter (fun c => c ≠ ' ')

/-- After skipping spaces, the input does not continue with a digit. -/
def firstNonSpaceNotDigit : List Char → Bool
  | [] => true
  | c :: cs => if c = ' ' then firstNonSpaceNotDigit cs else !c.isDigit

/-- Whitespace placement never splits a digit run.  The flag records whether
the scan sits immediately after a digit. -/
def okSplit : Bool → List Char → Bool
  | _, [] => true
  | b, c :: cs =>
    if c.isDigit then okSplit true cs
    else if c = ' ' then (!b || firstNonSpaceNotDigit cs) && okSplit false cs
    else okSplit false cs

theorem despace_head {cs : List Char} (h : firstNonSpaceNotDigit cs = true) :
    Boundary (despace cs) := by
  induction cs with
  | nil => trivial
  | cons c cs ih =>
    by_cases hsp : c = ' '
    · subst hsp
      rw [show despace (' ' :: cs) = despace cs from by simp [despace]]
      exact ih (by simpa [firstNonSpaceNotDigit] using h)
    · rw [show despace (c :: cs) = c :: despace cs from by simp [despace, hsp]]
      show c.isDigit = false
      simpa [firstNonSpaceNotDigit, hsp] using h

/-- Scanning ignores spaces: a legally spaced input scans exactly like its
despaced form. -/
theorem lex_despace : ∀ (cs buf : List Char) (prev : Option Op),
    okSplit (!buf.isEmpty) cs = true →
    lex cs buf prev = lex (despace cs) buf prev := by
  intro cs
  induction cs with
  | nil => intro buf prev h; rfl
  | cons c cs ih =>
    intro buf prev h
    by_cases hdig : c.isDigit = true
    · have hne : c ≠ ' ' := by
        intro hc; rw [hc] at hdig; exact absurd hdig (by decide)
      have hok : okSplit true cs = true := by simpa [okSplit, hdig] using h
      rw [show despace (c :: cs) = c :: despace cs from by simp [despace, hne],
        show lex (c :: cs) buf prev = lex cs (buf ++ [c]) prev from by
          simp [lex, isNumeric, hdig],
        show lex (c :: despace cs) buf prev = lex (despace cs) (buf ++ [c]) prev from by
          simp [lex, isNumeric, hdig],
        ih (buf ++ [c]) prev (by
          rw [show (buf ++ [c]).isEmpty = false from by cases buf <;> rfl]
          exact hok)]
    · rw [Bool.not_eq_true] at hdig
      by_cases hsp : c = ' '
      · subst hsp
        have hds : despace (' ' :: cs) = despace cs := by simp [despace]
        by_cases hbuf : buf = []
        · subst hbuf
          have hok : okSplit false cs = true := by simpa [okSplit] using h
          rw [hds, show lex (' ' :: cs) [] prev = lex cs [] prev from by
            simp [lex, isNumeric, classify_space], ih [] prev (by simpa using hok)]
        · have hflag : buf.isEmpty = false := by
            cases buf with
            | nil => exact absurd rfl hbuf
            | cons x xs => rfl
          have hok : firstNonSpaceNotDigit cs = true ∧ okSplit false cs = true := by
            simpa [okSplit, hflag] using h
          obtain ⟨hfns, hok2⟩ := hok
          have hIH : lex cs [] (some Op.number) = lex (despace cs) [] (some Op.number) :=
            ih [] (some Op.number) (by simpa using hok2)
          have hlhs : lex (' ' :: cs) buf prev
              = tcons ⟨Op.number, buf⟩ (lex cs [] (some Op.number)) := by
            simp [lex, isNumeric, classify_space, hbuf]
          rw [hds, hlhs, hIH]
          have hbnd := despace_head hfns
          cases hdc : despace cs with
          | nil => simp [hdc, lex, hbuf, tcons]
          | cons c2 rest =>
            have hc2 : c2.isDigit = false := by rw [hdc] at hbnd; exact hbnd
            rw [lex_flush rest prev hc2 hbuf]
      · have hds : despace (c :: cs) = c :: despace cs := by simp [despace, hsp]
        have hok : okSplit false cs = true := by simpa [okSplit, hdig, hsp] using h
        have hIH : ∀ p, lex cs [] p = lex (despace cs) [] p :=
          fun p => ih [] p (by simpa using hok)
        rw [hds]
        by_cases hbuf : buf = []
        · subst hbuf
          cases hcl : classifyChar c prev with
          | ws => simpa [lex, isNumeric, hdig, hcl] using hIH prev
          | tok t => simp [lex, isNumeric, hdig, hcl, tcons, hIH (some t.tokenType)]
          | bad => simp [lex, isNumeric, hdig, hcl]
        · cases hcl : classifyChar c (some Op.number) with
          | ws => simp [lex, isNumeric, hdig, hcl, hbuf, tcons, hIH (some Op.number)]
          | tok t => simp [lex, isNumeric, hdig, hcl, hbuf, tcons, hIH (some t.tokenType)]
          | bad => simp [lex, isNumeric, hdig, hcl, hbuf]

/-! ### Lexical errors on invalid characters -/

/-- The characters the tokenizer recognizes. -/
def validChar (c : Char) : Bool :=
  c.isDigit || c = ' ' || c = '+' || c = '-' || c = '*' || c = '/' || c = '^' ||
    c = '(' || c = ')'

theorem classify_bad {c : Char} (h : validChar c = false) (prev : Option Op) :
    classifyChar c prev = .bad := by
  simp only [validChar, Bool.or_eq_false_iff, decide_eq_false_iff_not] at h
  obtain ⟨⟨⟨⟨⟨⟨⟨⟨hd, hs⟩, hp⟩, hm⟩, ht⟩, hdv⟩, he⟩, hl⟩, hr⟩ := h
  simp [classifyChar, Op.symbol, hs, hp, hm, ht, hdv, he, hl, hr]

theorem isNumeric_of_invalid {c : Char} (h : validChar c = false) :
    isNumeric c = false := by
  simp only [validChar, Bool.or_eq_false_iff, decide_eq_false_iff_not] at h
  exact h.1.1.1.1.1.1.1.1

theorem classify_not_bad {c : Char} (hv : validChar c = true) (hd : c.isDigit = false)
    (prev : Option Op) : classifyChar c prev ≠ .bad := by
  simp only [validChar, Bool.or_eq_true, decide_eq_true_eq] at hv
  rcases hv with ((((((((hd2 | hs) | hp) | hm) | ht) | hdv) | he) | hl) | hr)
  · rw [hd] at hd2; cases hd2
  · subst hs; simp [classifyChar]
  · subst hp; rw [classify_plus]; simp
  · subst hm
    unfold classifyChar
    split_ifs <;> simp_all [Op.symbol]
  · subst ht; rw [classify_times]; simp
  · subst hdv; rw [classify_divide]; simp
  · subst he; rw [classify_expon]; simp
  · subst hl; rw [classify_lparen]; simp
  · subst hr; rw [classify_rparen]; simp

/-- An input containing an unrecognized character scans to a lexical error
carrying such a character. -/
theorem lex_err_invalid : ∀ (cs buf : List Char) (prev : Option Op),
    (∃ c ∈ cs, validChar c = false) →
    ∃ c, validChar c = false ∧ (lex cs buf prev).2 = some c := by
  intro cs
  induction cs with
  | nil =>
    rintro buf prev ⟨c, hc, -⟩
    cases hc
  | cons c cs ih =>
    rintro buf prev ⟨c2, hc2, hv⟩
    by_cases hval : validChar c = false
    · refine ⟨c, hval, ?_⟩
      have hdig := isNumeric_of_invalid hval
      by_cases hbuf : buf = []
      · subst hbuf; simp [lex, hdig, classify_bad hval]
      · simp [lex, hdig, classify_bad hval, hbuf]
    · rw [Bool.not_eq_false] at hval
      have hcs : ∃ x ∈ cs, validChar x = false := by
        rcases List.mem_cons.mp hc2 with he | hm
        · subst he; rw [hval] at hv; cases hv
        · exact ⟨c2, hm, hv⟩
      by_cases hdig : c.isDigit = true
      · rw [show lex (c :: cs) buf prev = lex cs (buf ++ [c]) prev from by
          simp [lex, isNumeric, hdig]]
        exact ih _ prev hcs
      · rw [Bool.not_eq_true] at hdig
        by_cases hbuf : buf = []
        · subst hbuf
          cases hcl : classifyChar c prev with
          | ws =>
            rw [show lex (c :: cs) [] prev = lex cs [] prev from by
              simp [lex, isNumeric, hdig, hcl]]
            exact ih [] prev hcs
          | tok t =>
            obtain ⟨c3, h3, h4⟩ := ih [] (some t.tokenType) hcs
            refine ⟨c3, h3, ?_⟩
            simp [lex, isNumeric, hdig, hcl, tcons, h4]
          | bad => exact absurd hcl (classify_not_bad hval hdig prev)
        · cases hcl : classifyChar c (some Op.number) with
          | ws =>
            obtain ⟨c3, h3, h4⟩ := ih [] (some Op.number) hcs
            refine ⟨c3, h3, ?_⟩
            simp [lex, isNumeric, hdig, hcl, hbuf, tcons, h4]
          | tok t =>
            obtain ⟨c3, h3, h4⟩ := ih [] (some t.tokenType) hcs
            refine ⟨c3, h3, ?_⟩
            simp [lex, isNumeric, hdig, hcl, hbuf, tcons, h4]
          | bad => exact absurd hcl (classify_not_bad hval hdig (some Op.number))

theorem tokenize_err_invalid {s : String} (h : ∃ c ∈ s.data, validChar c = false) :
    ∃ c, validChar c = false ∧ (tokenize s.data).2 = some c := by
  rw [tokenize_eq_lex]
  exact lex_err_invalid s.data [] none h

/-- A pending lexical error means `calculate` cannot return a value. -/
theorem calculate_err_of_lexErr {s : String} {c : Char}
    (h : (tokenize s.data).2 = some c) (q : ℚ) : calculate s ≠ .ok q := by
  intro hq
  rcases htok : tokenize s.data with ⟨toks, lexErr⟩
  have hl : lexErr = some c := by rw [htok] at h; exact h
  subst hl
  unfold calculate at hq
  simp only [htok] at hq
  rcases hpt : processTokens toks ([], []) with e | st <;> simp only [hpt] at hq <;>
    simp at hq

/-- Whitespace-only input produces no tokens. -/
theorem lex_spaces : ∀ (cs : List Char), (∀ c ∈ cs, c = ' ') →
    lex cs [] none = ([], none) := by
  intro cs
  induction cs with
  | nil => intro h; rfl
  | cons c cs ih =>
    intro h
    have hc : c = ' ' := h c (List.mem_cons_self c cs)
    subst hc
    rw [show lex (' ' :: cs) [] none = lex cs [] none from by
      simp [lex, isNumeric, classify_space]]
    exact ih (fun c hc => h c (List.mem_cons_of_mem _ hc))

/-! ### The claims -/

/-- C1 (amended): for every well-formed expression (unary minus applying to a
literal or parenthesized atom) whose evaluation stays inside the model's
arithmetic (no division by zero, integer exponents), `calculate` returns the
value obtained under the precedence ordering unary minus > exponentiation >
multiplication/division > addition/subtraction; in particular a unary minus
on the base of an exponentiation binds tighter than `^`, so "-2^2" evaluates
as (-2)^2 = 4. -/
theorem C1_theorem :
    (∀ (e : Expr) (s : List Char), R e 1 s → e.SafeEval →
      calculate (String.mk s) = .ok e.eval) ∧
    calculate "-2^2" = .ok 4 :=
  ⟨fun _ _ h _ => calculate_correct h, by with_unfolding_all decide⟩

/-- C1 counterexample: "-2^2" evaluates to 4, not -4 as the claim (with
exponentiation binding tighter than unary minus) states. -/
theorem C1_counterexample :
    calculate "-2^2" = .ok 4 ∧ calculate "-2^2" ≠ .ok (-4) := by
  constructor <;> with_unfolding_all decide

/-- C1 witness: the amended universal statement applied to the concrete
well-formed expression "-(3)". -/
theorem C1_witness : calculate "-(3)" = .ok (-3) := by
  have h2 := C1_theorem.1 (.neg (.num (parseNat ['3']))) "-(3)".data
    (R.neg (by omega) (R.paren 5 (R.num ['3'] 1 (by decide) (by decide)))) trivial
  rw [show String.mk "-(3)".data = "-(3)" from rfl] at h2
  rw [h2]
  with_unfolding_all decide

/-- C2: mismatched parentheses.  For "(1+2" (unclosed LPAREN) and for a
RPAREN arriving at an empty operator stack (")"), the program raises
`ValueError("mismatched parentheses")`; but for "1+2)" — a RPAREN whose
reduction loop exhausts the operator stack without finding an LPAREN — it
peeks the empty stack and raises a bare `IndexError` instead, contradicting
the claim and the evident intent of the dead recheck in the source. -/
theorem C2_theorem :
    calculate "1+2)" = .error .indexError ∧
    calculate "(1+2" = .error (.valueError "mismatched parentheses") ∧
    calculate ")" = .error (.valueError "mismatched parentheses") := by
  refine ⟨?_, ?_, ?_⟩ <;> with_unfolding_all decide

/-- C3 counterexample: "2 3" leaves two values on the operand stack, yet
`calculate` returns 3 rather than signalling a malformed expression. -/
theorem C3_counterexample : calculate "2 3" = .ok 3 := by
  with_unfolding_all decide

/-- C3 (amended): when more than one value remains on the operand stack after
draining, `calculate` silently returns the topmost value (the result
extraction returns the stack top whatever the stack length); only popping an
empty operand stack signals an error. -/
theorem C3_theorem :
    (∀ (v : ℚ) (rest : List ℚ), OutputStack.result (v :: rest) = .ok v) ∧
    OutputStack.result [] = .error .indexError ∧
    calculate "2 3" = .ok 3 :=
  ⟨fun _ _ => rfl, rfl, by with_unfolding_all decide⟩

/-- C4 (amended): for every well-formed expression in which unary minus is
applied directly to a literal or parenthesized atom and whose evaluation
stays inside the model's arithmetic (no division by zero, integer
exponents), `calculate` terminates and returns the value given by the
program's precedence table (unary minus above exponentiation, exponentiation
right-associative, the four other operators left-associative); "2-3-4" = -5
and "2^3^2" = 512; directly nested unary minus ("--2") is instead rejected
with an operand-stack underflow. -/
theorem C4_theorem :
    (∀ (e : Expr) (s : List Char), R e 1 s → e.SafeEval →
      calculate (String.mk s) = .ok e.eval) ∧
    calculate "2-3-4" = .ok (-5) ∧ calculate "2^3^2" = .ok 512 ∧
    calculate "--2" = .error .indexError := by
  refine ⟨fun _ _ h _ => calculate_correct h, ?_, ?_, ?_⟩ <;> with_unfolding_all decide

/-- C4 counterexample: under the spec's conventional precedence
(exponentiation above unary minus, rendered by `Rconv`), "-5^2" denotes
-(5^2) = -25, but `calculate` returns 25; hence `calculate` does not agree
with the conventional-precedence value on every well-formed expression. -/
theorem C4_counterexample :
    ¬ ∀ (e : Expr) (s : List Char), Rconv e 1 s → calculate (String.mk s) = .ok e.eval := by
  intro hall
  have h2 := hall (.neg (.pow (.num (parseNat ['5'])) (.num (parseNat ['2'])))) "-5^2".data
    (Rconv.neg (by omega) (Rconv.pow (by omega) (Rconv.num ['5'] 5 (by decide) (by decide))
      (Rconv.num ['2'] 4 (by decide) (by decide))))
  rw [show String.mk "-5^2".data = "-5^2" from rfl] at h2
  have h3 : calculate "-5^2" = .ok 25 := by with_unfolding_all decide
  rw [h3] at h2
  have h4 : (25 : ℚ) = (Expr.neg (.pow (.num (parseNat ['5'])) (.num (parseNat ['2'])))).eval := by
    injection h2
  have h5 : (Expr.neg (.pow (.num (parseNat ['5'])) (.num (parseNat ['2'])))).eval = -25 := by
    with_unfolding_all decide
  rw [h5] at h4
  norm_num at h4

/-- C4 witness: the amended universal statement applied to the concrete
well-formed expression "(1+2)*3". -/
theorem C4_witness : calculate "(1+2)*3" = .ok 9 := by
  have h2 := C4_theorem.1
    (.mul (.add (.num (parseNat ['1'])) (.num (parseNat ['2']))) (.num (parseNat ['3'])))
    "(1+2)*3".data
    (R.mul (by omega) (R.paren 2 (R.add (by omega) (R.num ['1'] 1 (by decide) (by decide))
      (R.num ['2'] 2 (by decide) (by decide)))) (R.num ['3'] 3 (by decide) (by decide)))
    ⟨⟨trivial, trivial⟩, trivial⟩
  rw [show String.mk "(1+2)*3".data = "(1+2)*3" from rfl] at h2
  rw [h2]
  with_unfolding_all decide

/-- C5: when the scanner reads `-` (with an empty digit buffer, i.e. at the
position where the minus is classified), it emits a UNARY-minus token exactly
when no token has been emitted yet or the previously emitted token is
neither NUMBER nor RPAREN, and the binary minus operator token otherwise;
consequently "1-(-2)" = 3 and "3*-2" = -6. -/
theorem C5_theorem :
    (∀ (cs : List Char) (prev : Option Op),
      Tokenizer.next ('-' :: cs) [] prev =
        .tok ⟨if prev = none ∨ (prev ≠ some Op.number ∧ prev ≠ some Op.rparen)
              then Op.uminus else Op.minus, ['-']⟩ cs []) ∧
    calculate "1-(-2)" = .ok 3 ∧ calculate "3*-2" = .ok (-6) := by
  refine ⟨?_, ?_, ?_⟩
  · intro cs prev
    cases prev with
    | none => rfl
    | some t => cases t <;> rfl
  · with_unfolding_all decide
  · with_unfolding_all decide

/-- C6 (amended): an ASCII input containing a character that is not a digit,
whitespace, an operator symbol or a parenthesis makes tokenization fail with
a `ValueError` carrying the offending character — but not its position — and
evaluation never returns a value.  The ASCII restriction is where the
model's `isNumeric` coincides with the source's `isnumeric()`: the source
accepts non-ASCII Unicode-numeric characters as number characters. -/
theorem C6_theorem : ∀ (s : String), (∀ c ∈ s.data, c.toNat < 128) →
    (∃ c ∈ s.data, validChar c = false) →
    (∃ c, validChar c = false ∧ (tokenize s.data).2 = some c) ∧
    ∀ q : ℚ, calculate s ≠ .ok q := by
  intro s hascii h
  obtain ⟨c, hc1, hc2⟩ := tokenize_err_invalid h
  exact ⟨⟨c, hc1, hc2⟩, fun q => calculate_err_of_lexErr hc2 q⟩

/-- C6 counterexample: the same error value `ValueError("@")` results from
"@" (offending position 0) and " @" (offending position 1); the raised error
therefore cannot carry the character's position. -/
theorem C6_counterexample :
    calculate "@" = .error (.valueError "@") ∧
    calculate " @" = .error (.valueError "@") := by
  constructor <;> with_unfolding_all decide

/-- C6 witness: the theorem applied to the concrete invalid input "1#2". -/
theorem C6_witness : validChar '#' = false ∧ calculate "1#2" ≠ .ok (3 : ℚ) := by
  have h := C6_theorem "1#2" (by decide) ⟨'#', by decide, by decide⟩
  exact ⟨by decide, h.2 3⟩

/-- C7 (amended): after the token sequence is exhausted, further `__next__`
calls signal end of iteration and never produce tokens; but `__iter__` on
the same instance resets the scan state, so iterating the instance again
reproduces the token sequence — a second pass does not require a new
instance, since iterating any instance behaves like iterating a fresh
instance over the same text. -/
theorem C7_theorem :
    (∀ prev : Option Op, Tokenizer.next [] [] prev = .stop) ∧
    (∀ (st : TkState) (fuel : Nat),
      collectTokens fuel (Tokenizer.iter st)
        = collectTokens fuel (Tokenizer.iter ⟨st.expr, st.expr, [], none⟩)) :=
  ⟨fun _ => rfl, fun _ _ => rfl⟩

/-- C7 counterexample: an instance over "1+1" yields its three tokens and is
left exhausted; applying `__iter__` to that same exhausted instance and
iterating again reproduces the same token sequence, so an operation on the
same instance does produce the sequence again. -/
theorem C7_counterexample :
    (collectTokens 10 (Tokenizer.iter ⟨"1+1".data, [], [], none⟩)
      = [⟨Op.number, ['1']⟩, ⟨Op.plus, ['+']⟩, ⟨Op.number, ['1']⟩]) ∧
    (runState 10 (Tokenizer.iter ⟨"1+1".data, [], [], none⟩)).rest = [] ∧
    collectTokens 10 (Tokenizer.iter (runState 10 (Tokenizer.iter ⟨"1+1".data, [], [], none⟩)))
      = [⟨Op.number, ['1']⟩, ⟨Op.plus, ['+']⟩, ⟨Op.number, ['1']⟩] := by
  refine ⟨?_, ?_, ?_⟩ <;> decide

/-- C8: dividing two integer operands performs true (non-truncating)
division: for all decimal literals a/b with b nonzero the result is the
exact rational quotient; "3/2" yields 3/2 = 1.5, not 1. -/
theorem C8_theorem :
    ∀ (da db : List Char), da ≠ [] → db ≠ [] →
    (∀ c ∈ da, c.isDigit = true) → (∀ c ∈ db, c.isDigit = true) →
    (parseNat db : ℚ) ≠ 0 →
    calculate (String.mk (da ++ '/' :: db)) = .ok ((parseNat da : ℚ) / (parseNat db : ℚ)) := by
  intro da db h1 h2 h3 h4 h5
  exact calculate_correct (R.div (by omega) (R.num da 2 h1 h3) (R.num db 3 h2 h4))

/-- C8 witness: the theorem applied to "3/2"; the value 3/2 is the exact
(fractional) quotient 1.5, not the truncated 1. -/
theorem C8_witness : calculate "3/2" = .ok (3 / 2) ∧ (3 / 2 : ℚ) ≠ 1 := by
  constructor
  · have h2 := C8_theorem ['3'] ['2'] (by decide) (by decide) (by decide) (by decide)
      (by with_unfolding_all decide)
    rw [show String.mk (['3'] ++ '/' :: ['2']) = "3/2" from rfl] at h2
    rw [h2]
    with_unfolding_all decide
  · with_unfolding_all decide

/-- C9: whitespace insensitivity.  Two ASCII inputs with the same space-free
content, in which spaces never split a digit run, evaluate to the same
outcome.  The ASCII restriction is where the model's notion of digit run
coincides with the source's (the source extends number runs over any
Unicode-numeric character). -/
theorem C9_theorem : ∀ (e1 e2 : String),
    (∀ c ∈ e1.data, c.toNat < 128) → (∀ c ∈ e2.data, c.toNat < 128) →
    despace e1.data = despace e2.data →
    okSplit false e1.data = true → okSplit false e2.data = true →
    calculate e1 = calculate e2 := by
  intro e1 e2 ha1 ha2 hd h1 h2
  have hl : lex e1.data [] none = lex e2.data [] none := by
    rw [lex_despace e1.data [] none (by simpa using h1),
      lex_despace e2.data [] none (by simpa using h2), hd]
  have ht : tokenize e1.data = tokenize e2.data := by
    rw [tokenize_eq_lex, tokenize_eq_lex, hl]
  unfold calculate
  rw [ht]

/-- C9 witness: the theorem applied to " 2-1 + 2 " and "2-1+2". -/
theorem C9_witness : calculate " 2-1 + 2 " = calculate "2-1+2" :=
  C9_theorem " 2-1 + 2 " "2-1+2" (by decide) (by decide) (by decide) (by decide) (by decide)

/-- C10: on the empty string and on whitespace-only input the tokenizer
yields no tokens and `calculate` raises an empty-stack `IndexError` when
extracting the result; it never returns a number. -/
theorem C10_theorem : ∀ (s : String), (∀ c ∈ s.data, c = ' ') →
    tokenize s.data = ([], none) ∧ calculate s = .error .indexError := by
  intro s h
  have ht : tokenize s.data = ([], none) := by
    rw [tokenize_eq_lex]
    exact lex_spaces s.data h
  refine ⟨ht, ?_⟩
  unfold calculate
  simp [ht, processTokens_nil, drain, OutputStack.result]

/-- C10 witness: the theorem applied to the whitespace-only input "  ". -/
theorem C10_witness : tokenize "  ".data = ([], none) ∧ calculate "  " = .error .indexError :=
  C10_theorem "  " (by decide)
